import Mathlib

/-!
Verification development for the GenioOMassone quiz bot (src/main.py).

The embedding models the two SQLAlchemy tables (`characters`, `game_status`)
as Lean lists, calendar dates as naturals, and the three pieces of game
logic — `select_new_character`, `start_command`, `button_callback_handler` —
as pure functions from a database state to a result together with the
successor database state.  SQL specifics are rendered as follows:

* `query(GameStatus).filter(game_date == today).first()` is `List.find?`
  over the `game_status` rows;
* `query(Character).order_by(last_proposed_date.asc()).first()` is a stable
  minimum over the `characters` rows under the SQLite ascending order that
  places `NULL` before every real date (`nullsFirstLE`), ties resolved by
  row order;
* `query(GameStatus).delete()` empties the `game_status` list;
* the ORM attribute assignment `char.last_proposed_date = today` updates
  the row with the selected primary key.
-/

namespace GenioOMassone

/-- Row of the `characters` table (src/main.py, class `Character`):
integer primary key, name, category string, nullable last-proposed date. -/
structure Character where
  id : Nat
  name : String
  category : String
  last_proposed_date : Option Nat
deriving DecidableEq

/-- Row of the `game_status` table (src/main.py, class `GameStatus`):
the character of the day and the date it was recorded for. -/
structure GameStatus where
  current_char_id : Nat
  game_date : Nat
deriving DecidableEq

/-- The database state: the two tables, rows in insertion (rowid) order. -/
structure DB where
  characters : List Character
  game_status : List GameStatus
deriving DecidableEq

/-- SQLite ascending comparison on a nullable date column: `NULL` sorts
before every real date, real dates by numeric order. -/
def nullsFirstLE : Option Nat → Option Nat → Bool
  | none, _ => true
  | some _, none => false
  | some a, some b => Nat.ble a b

/-- `query(Character).order_by(Character.last_proposed_date.asc()).first()`:
the first row (in rowid order) whose `last_proposed_date` is minimal under
`nullsFirstLE`. -/
def orderByDateFirst : List Character → Option Character
  | [] => none
  | c :: cs =>
    match orderByDateFirst cs with
    | none => some c
    | some m =>
      if nullsFirstLE c.last_proposed_date m.last_proposed_date then some c else some m

/-- `query(GameStatus).filter(GameStatus.game_date == today).first()`. -/
def findStatusFor (db : DB) (today : Nat) : Option GameStatus :=
  db.game_status.find? (fun s => s.game_date == today)

/-- `query(Character).filter(Character.id == cid).first()`. -/
def findCharById (db : DB) (cid : Nat) : Option Character :=
  db.characters.find? (fun c => c.id == cid)

/-- The ORM mutation `char.last_proposed_date = today` as a row transform. -/
def setDate (today : Nat) (c : Character) : Character :=
  { c with last_proposed_date := some today }

/-- `select_new_character` (src/main.py lines 92-120): if a `GameStatus`
row for today exists, return the recorded character and leave the state
alone; otherwise pick the least-recently-proposed character (NULL dates
first), stamp today on it, delete every `game_status` row and insert the
single new one; with an empty catalog return no character. -/
def select_new_character (today : Nat) (db : DB) : Option Character × DB :=
  match findStatusFor db today with
  | some st => (findCharById db st.current_char_id, db)
  | none =>
    match orderByDateFirst db.characters with
    | some m =>
      (some (setDate today m),
       { characters :=
           db.characters.map (fun c => if c.id == m.id then setDate today c else c),
         game_status := [⟨m.id, today⟩] })
    | none => (none, db)

/-- Python `str.capitalize()`: first character upper-cased, the rest
lower-cased (ASCII, which covers every category key in the database). -/
def pyCapitalize (s : String) : String :=
  match s.data with
  | [] => s
  | c :: cs => String.mk (c.toUpper :: cs.map Char.toLower)

/-- The category display formatting the callback handler applies to both
the guess and the stored category: `.capitalize()` (src/main.py lines
193-199). -/
def displayCategory (k : String) : String :=
  pyCapitalize k

/-- The comparison the callback handler performs between the submitted
button payload and the stored category (src/main.py line 190):
exact string equality. -/
def answerIsCorrect (user_guess correct_answer : String) : Bool :=
  user_guess == correct_answer

/-- `start_command` (src/main.py lines 139-161) as a function from the
database state to the reply text and the successor state. -/
def start_command (today : Nat) (db : DB) : String × DB :=
  match select_new_character today db with
  | (some c, db') =>
      ("🎉 **Benvenuto nel quiz del giorno!**\n\nIl personaggio di oggi è: **" ++
        c.name ++ "**\n\nIndovina la sua vera identità:", db')
  | (none, db') => ("Errore: Nessun personaggio disponibile nel database.", db')

/-- `button_callback_handler` (src/main.py lines 163-210) as a function
from the guess and database state to the edited message text and the
successor state. -/
def button_callback_handler (user_guess : String) (today : Nat) (db : DB) :
    String × DB :=
  match findStatusFor db today with
  | none => ("Il quiz del giorno non è ancora iniziato!", db)
  | some st =>
    match findCharById db st.current_char_id with
    | none => ("Errore nel recupero del personaggio.", db)
    | some c =>
      if answerIsCorrect user_guess c.category then
        ("✅ **Corretto!**\nHai indovinato! **" ++ c.name ++
          "** era effettivamente un **" ++ displayCategory c.category ++ "**.", db)
      else
        ("❌ **Sbagliato!**\nHai risposto: _" ++ displayCategory user_guess ++
          "_\nLa risposta corretta era: **" ++ displayCategory c.category ++
          "**.\n\nIl personaggio era: **" ++ c.name ++ "**.", db)

/-- The canonical category enumeration as spelled in the database and in
the inline-keyboard payloads (src/main.py lines 56 and 129-134). -/
def canonicalKeys : List String :=
  ["GENIUS", "MASON", "BOTH", "COMMON"]

/-- Modelled from the spec: the canonical enumeration together with the
recognized legacy synonyms the spec lists (the historical
GENIO/MASSONE/ENTRAMBI/COMUNE spellings, the FREEMASON spelling and the
verbose ordinary-person synonym). -/
def recognizedKeys : List String :=
  canonicalKeys ++
    ["FREEMASON", "GENIO", "MASSONE", "ENTRAMBI", "COMUNE", "PERSONA COMUNE"]

/-- Whitespace test for trimming. -/
def isSpaceChar (c : Char) : Bool :=
  c.isWhitespace

/-- Remove leading whitespace from a character list. -/
def ltrimChars (l : List Char) : List Char :=
  l.dropWhile isSpaceChar

/-- Remove trailing whitespace from a character list. -/
def rtrimChars (l : List Char) : List Char :=
  l.rdropWhile isSpaceChar

/-- Remove leading and trailing whitespace from a character list. -/
def trimChars (l : List Char) : List Char :=
  rtrimChars (ltrimChars l)

/-- String-level trim built on the character-list trim. -/
def trimString (s : String) : String :=
  String.mk (trimChars s.data)

/-- ASCII upper-casing of a whole string, used by the spec-side
canonicalization. -/
def upperAscii (s : String) : String :=
  String.mk (s.data.map Char.toUpper)

/-- Modelled from the spec: the normalization §4.4 prescribes — trim,
case-fold, then map every recognized legacy synonym to its canonical
enumeration value. -/
def specCanonicalize (k : String) : String :=
  if upperAscii (trimString k) = "FREEMASON" then "MASON"
  else if upperAscii (trimString k) = "GENIO" then "GENIUS"
  else if upperAscii (trimString k) = "MASSONE" then "MASON"
  else if upperAscii (trimString k) = "ENTRAMBI" then "BOTH"
  else if upperAscii (trimString k) = "COMUNE" then "COMMON"
  else if upperAscii (trimString k) = "PERSONA COMUNE" then "COMMON"
  else upperAscii (trimString k)

/-- Modelled from the spec: the user-facing display label of each
canonical category value (§8 scenario B shows the label "Genius"); any
other key is its own label. -/
def canonicalLabel (k : String) : String :=
  if k = "GENIUS" then "Genius"
  else if k = "MASON" then "Mason"
  else if k = "BOTH" then "Both"
  else if k = "COMMON" then "Common"
  else k

/-- At most one `game_status` row per distinct date. -/
def atMostOnePerDate (gs : List GameStatus) : Prop :=
  gs.Pairwise (fun a b => a.game_date ≠ b.game_date)

/-- Modelled from the spec: no bio-extraction code exists under src/ (the
shipped revision has no biography column at all), so the
`BioExplanationExtractor` of §4.3 is modelled from the spec's words — a
data-driven mapping from each category to its known category-restating
introductory phrase variants, in longest-first order; the COMMON category
has none because §4.3 says its narrative is self-contained and returned
unmodified. -/
def categoryVariants (category : String) : List (List Char) :=
  if category = "GENIUS" then ["Is a **Genius**. Specifically:".data]
  else if category = "MASON" then ["Is a **Freemason**. Specifically:".data]
  else if category = "BOTH" then ["Is **Both**. Specifically:".data]
  else []

/-- Modelled from the spec: try each known phrase variant in turn; if the
trimmed biography starts with the phrase, return the remainder trimmed,
otherwise fall through; with no variant matching, return the biography
unchanged. -/
def extractWith : List (List Char) → List Char → List Char
  | [], bio => bio
  | p :: ps, bio =>
    if p.isPrefixOf (trimChars bio) then trimChars ((trimChars bio).drop p.length)
    else extractWith ps bio

/-- Modelled from the spec: `BioExplanationExtractor.extract`, specialised
to a character's category and biography text. -/
def extract (category : String) (bio : List Char) : List Char :=
  extractWith (categoryVariants category) bio

/-- C1 counterexample: the recognized legacy synonym "GENIO" and the
canonical "GENIUS" canonicalize to the same value, yet the handler's
comparison judges the guess incorrect — the verdict is not determined by
canonicalization equality over the recognized key set. -/
theorem C1_counterexample :
    "GENIO" ∈ recognizedKeys ∧ "GENIUS" ∈ recognizedKeys ∧
    specCanonicalize "GENIO" = specCanonicalize "GENIUS" ∧
    answerIsCorrect "GENIO" "GENIUS" = false := by
  refine ⟨by decide, by decide, ?_, by decide⟩
  rfl

/-- C1 (amended): the handler judges a guess correct exactly when the
submitted key equals the stored category as raw strings — no trimming,
case-folding or synonym mapping is applied, so a guess differing from the
stored category only in case or by a recognized synonym is judged
incorrect. -/
theorem C1_amended (g k : String) : answerIsCorrect g k = true ↔ g = k := by
  simp [answerIsCorrect]

/-- C4: with an empty catalog, selection yields no character and the
start handler replies with the user-visible "no character available"
error message, leaving the database unchanged (no exception path). -/
theorem C4_empty_catalog (today : Nat) (db : DB) (hempty : db.characters = []) :
    select_new_character today db = (none, db) ∧
    start_command today db =
      ("Errore: Nessun personaggio disponibile nel database.", db) := by
  have hsel : select_new_character today db = (none, db) := by
    unfold select_new_character
    cases hst : findStatusFor db today with
    | none => simp [hempty, orderByDateFirst]
    | some st => simp [findCharById, hempty]
  exact ⟨hsel, by simp [start_command, hsel]⟩

/-- C4 witness. -/
theorem C4_empty_catalog_witness :
    select_new_character 0 ⟨[], []⟩ = (none, ⟨[], []⟩) ∧
    start_command 0 ⟨[], []⟩ =
      ("Errore: Nessun personaggio disponibile nel database.", ⟨[], []⟩) :=
  C4_empty_catalog 0 ⟨[], []⟩ rfl

/-- C5: when no game-status row exists for today (no prior begin), the
callback handler replies with the user-visible "quiz not started yet"
guidance, resolves no verdict and leaves the database unchanged. -/
theorem C5_no_session (today : Nat) (guess : String) (db : DB)
    (h : findStatusFor db today = none) :
    button_callback_handler guess today db =
      ("Il quiz del giorno non è ancora iniziato!", db) := by
  unfold button_callback_handler
  rw [h]

/-- C5 witness. -/
theorem C5_no_session_witness :
    button_callback_handler "GENIUS" 0 ⟨[], []⟩ =
      ("Il quiz del giorno non è ancora iniziato!", ⟨[], []⟩) :=
  C5_no_session 0 "GENIUS" ⟨[], []⟩ rfl

/-- C10: when a game-status row exists for today but its stored character
id matches no catalog row, the callback handler replies with the
user-visible retrieval-error message, produces no verdict and leaves the
database unchanged. -/
theorem C10_dangling_char (today : Nat) (guess : String) (db : DB)
    (st : GameStatus)
    (h1 : findStatusFor db today = some st)
    (h2 : findCharById db st.current_char_id = none) :
    button_callback_handler guess today db =
      ("Errore nel recupero del personaggio.", db) := by
  simp [button_callback_handler, h1, h2]

/-- C10 witness. -/
theorem C10_dangling_char_witness :
    button_callback_handler "GENIUS" 3 ⟨[], [⟨7, 3⟩]⟩ =
      ("Errore nel recupero del personaggio.", ⟨[], [⟨7, 3⟩]⟩) :=
  C10_dangling_char 3 "GENIUS" ⟨[], [⟨7, 3⟩]⟩ ⟨7, 3⟩ (by decide) (by decide)

/-- C8 counterexample: the formatter the handler applies is Python
`capitalize`; the unrecognized key "XYZ" is returned as "Xyz", not
unchanged, and the recognized verbose synonym "PERSONA COMUNE" is not
mapped to the "Common" label of its canonical value. -/
theorem C8_counterexample :
    displayCategory "XYZ" = "Xyz" ∧ "XYZ" ∉ recognizedKeys ∧ "Xyz" ≠ "XYZ" ∧
    "PERSONA COMUNE" ∈ recognizedKeys ∧
    specCanonicalize "PERSONA COMUNE" = "COMMON" ∧
    displayCategory "PERSONA COMUNE" ≠ canonicalLabel "COMMON" := by
  refine ⟨rfl, by decide, by decide, by decide, ?_, by decide⟩
  rfl

/-- C8 (amended): the formatter is the total pure function
`capitalize` — on each of the four canonical keys it yields the
user-facing label, and on every input (recognized or not) it yields the
input with its first character upper-cased and the rest lower-cased,
rather than echoing unrecognized keys unchanged. -/
theorem C8_amended :
    (∀ k ∈ canonicalKeys, displayCategory k = canonicalLabel k) ∧
    (∀ c cs, displayCategory (String.mk (c :: cs)) =
      String.mk (c.toUpper :: cs.map Char.toLower)) := by
  constructor
  · intro k hk
    fin_cases hk <;> rfl
  · intro c cs
    rfl

/-- C8 witness. -/
theorem C8_amended_witness :
    displayCategory "GENIUS" = canonicalLabel "GENIUS" ∧
    displayCategory (String.mk ['M', 'A', 'S', 'O', 'N']) =
      String.mk ('M'.toUpper :: ['A', 'S', 'O', 'N'].map Char.toLower) :=
  ⟨C8_amended.1 "GENIUS" (by decide), C8_amended.2 'M' ['A', 'S', 'O', 'N']⟩

theorem nullsFirstLE_refl (a : Option Nat) : nullsFirstLE a a = true := by
  cases a <;> simp [nullsFirstLE, Nat.ble_eq]

theorem nullsFirstLE_trans (a b c : Option Nat)
    (h1 : nullsFirstLE a b = true) (h2 : nullsFirstLE b c = true) :
    nullsFirstLE a c = true := by
  cases a <;> cases b <;> cases c <;> simp_all [nullsFirstLE, Nat.ble_eq]
  omega

theorem nullsFirstLE_total (a b : Option Nat) :
    nullsFirstLE a b = true ∨ nullsFirstLE b a = true := by
  cases a <;> cases b <;> simp [nullsFirstLE, Nat.ble_eq]
  omega

/-- Equation lemma: the query on a catalog whose tail already has a first
row under the date order. -/
theorem orderByDateFirst_cons_some (c : Character) (cs : List Character)
    (m : Character) (h : orderByDateFirst cs = some m) :
    orderByDateFirst (c :: cs) =
      if nullsFirstLE c.last_proposed_date m.last_proposed_date then some c
      else some m := by
  unfold orderByDateFirst
  rw [h]

/-- Equation lemma: the query on a catalog whose tail yields nothing. -/
theorem orderByDateFirst_cons_none (c : Character) (cs : List Character)
    (h : orderByDateFirst cs = none) :
    orderByDateFirst (c :: cs) = some c := by
  unfold orderByDateFirst
  rw [h]

theorem orderByDateFirst_isSome (l : List Character) (hne : l ≠ []) :
    (orderByDateFirst l).isSome := by
  induction l with
  | nil => exact absurd rfl hne
  | cons c cs ih =>
    cases hcs : orderByDateFirst cs with
    | none => rw [orderByDateFirst_cons_none c cs hcs]; rfl
    | some m =>
      rw [orderByDateFirst_cons_some c cs m hcs]
      split <;> rfl

theorem orderByDateFirst_mem (l : List Character) :
    ∀ m, orderByDateFirst l = some m → m ∈ l := by
  induction l with
  | nil => intro m h; simp [orderByDateFirst] at h
  | cons c cs ih =>
    intro m h
    cases hcs : orderByDateFirst cs with
    | none =>
      rw [orderByDateFirst_cons_none c cs hcs] at h
      injection h with h
      simp [h]
    | some mm =>
      rw [orderByDateFirst_cons_some c cs mm hcs] at h
      split at h <;> injection h with h
      · simp [h]
      · exact List.mem_cons_of_mem _ (h ▸ ih mm hcs)

theorem orderByDateFirst_min (l : List Character) :
    ∀ m, orderByDateFirst l = some m →
      ∀ x ∈ l, nullsFirstLE m.last_proposed_date x.last_proposed_date = true := by
  induction l with
  | nil => intro m h; simp [orderByDateFirst] at h
  | cons c cs ih =>
    intro m h x hx
    cases hcs : orderByDateFirst cs with
    | none =>
      rw [orderByDateFirst_cons_none c cs hcs] at h
      injection h with h
      subst h
      have hnil : cs = [] := by
        cases cs with
        | nil => rfl
        | cons d ds =>
          exfalso
          have := orderByDateFirst_isSome (d :: ds) (by simp)
          rw [hcs] at this
          simp at this
      subst hnil
      rcases List.mem_cons.mp hx with hxc | hxcs
      · rw [hxc]; exact nullsFirstLE_refl _
      · simp at hxcs
    | some mm =>
      rw [orderByDateFirst_cons_some c cs mm hcs] at h
      rcases List.mem_cons.mp hx with hxc | hxcs
      · split at h
        · injection h with h
          rw [← h, hxc]
          exact nullsFirstLE_refl _
        · injection h with h
          rename_i hnle
          rw [← h, hxc]
          rcases nullsFirstLE_total c.last_proposed_date mm.last_proposed_date
            with htot | htot
          · exact absurd htot hnle
          · exact htot
      · split at h
        · injection h with h
          rename_i hle
          rw [← h]
          exact nullsFirstLE_trans _ _ _ hle (ih mm hcs x hxcs)
        · injection h with h
          rw [← h]
          exact ih mm hcs x hxcs

/-- Equation lemma: selection when a status row for today exists. -/
theorem select_already_started (today : Nat) (db : DB) (st : GameStatus)
    (h : findStatusFor db today = some st) :
    select_new_character today db = (findCharById db st.current_char_id, db) := by
  unfold select_new_character
  rw [h]

/-- Equation lemma: selection on a fresh day with a non-empty catalog. -/
theorem select_fresh_day (today : Nat) (db : DB) (m : Character)
    (h1 : findStatusFor db today = none)
    (h2 : orderByDateFirst db.characters = some m) :
    select_new_character today db =
      (some (setDate today m),
       { characters :=
           db.characters.map (fun c => if c.id == m.id then setDate today c else c),
         game_status := [⟨m.id, today⟩] }) := by
  unfold select_new_character
  rw [h1, h2]

/-- Equation lemma: selection on a fresh day with an exhausted catalog. -/
theorem select_fresh_day_empty (today : Nat) (db : DB)
    (h1 : findStatusFor db today = none)
    (h2 : orderByDateFirst db.characters = none) :
    select_new_character today db = (none, db) := by
  unfold select_new_character
  rw [h1, h2]

theorem setDate_id (today : Nat) (c : Character) : (setDate today c).id = c.id :=
  rfl

/-- Looking up the selected character by primary key after the ORM update:
with distinct ids, the first row matching the selected id is precisely the
updated copy of the selected row. -/
theorem find?_map_update (l : List Character) (m : Character) (today : Nat)
    (hm : m ∈ l) (hnodup : (l.map Character.id).Nodup) :
    (l.map fun c => if c.id == m.id then setDate today c else c).find?
      (fun c => c.id == m.id) = some (setDate today m) := by
  induction l with
  | nil => simp at hm
  | cons a t ih =>
    simp only [List.map_cons] at hnodup ⊢
    by_cases hid : a.id = m.id
    · have ham : a = m := by
        rcases List.mem_cons.mp hm with hma | hmt
        · exact hma.symm
        · exfalso
          have hmem : a.id ∈ t.map Character.id :=
            List.mem_map.mpr ⟨m, hmt, hid.symm⟩
          exact (List.nodup_cons.mp hnodup).1 hmem
      subst ham
      rw [if_pos (by simp)]
      exact List.find?_cons_of_pos _ (by simp [setDate])
    · rw [if_neg (by simp [hid])]
      rw [List.find?_cons_of_neg _ (by simp [hid])]
      have hmt : m ∈ t := by
        rcases List.mem_cons.mp hm with hma | hmt
        · exact absurd (by rw [hma]) hid
        · exact hmt
      exact ih hmt (List.nodup_cons.mp hnodup).2

/-- C2: character selection is idempotent within a date — once a call has
recorded a selection for today, running the selection again on the
resulting state returns the very same character and leaves the state
untouched (no re-selection, no second update of any row's
`last_proposed_date`). -/
theorem C2_selection_idempotent (today : Nat) (db : DB) (c : Character)
    (db' : DB) (hnodup : (db.characters.map Character.id).Nodup)
    (h : select_new_character today db = (some c, db')) :
    select_new_character today db' = (some c, db') := by
  cases hst : findStatusFor db today with
  | some st =>
    rw [select_already_started today db st hst] at h
    rw [Prod.mk.injEq] at h
    obtain ⟨h1, h2⟩ := h
    subst h2
    rw [select_already_started today db st hst, h1]
  | none =>
    cases hmin : orderByDateFirst db.characters with
    | none =>
      rw [select_fresh_day_empty today db hst hmin] at h
      simp at h
    | some m =>
      rw [select_fresh_day today db m hst hmin] at h
      rw [Prod.mk.injEq] at h
      obtain ⟨hc, hdb⟩ := h
      injection hc with hc
      subst hdb
      have hstat :
          findStatusFor
            { characters :=
                db.characters.map
                  (fun x => if x.id == m.id then setDate today x else x),
              game_status := [⟨m.id, today⟩] } today =
            some ⟨m.id, today⟩ := by
        simp [findStatusFor]
      rw [select_already_started _ _ _ hstat]
      rw [Prod.mk.injEq]
      refine ⟨?_, rfl⟩
      have hfind := find?_map_update db.characters m today
        (orderByDateFirst_mem _ m hmin) hnodup
      simpa [findCharById, hc] using hfind

/-- C2 witness. -/
theorem C2_selection_idempotent_witness :
    select_new_character 5
        ⟨[⟨1, "Leonardo da Vinci", "GENIUS", some 5⟩], [⟨1, 5⟩]⟩ =
      (some ⟨1, "Leonardo da Vinci", "GENIUS", some 5⟩,
        ⟨[⟨1, "Leonardo da Vinci", "GENIUS", some 5⟩], [⟨1, 5⟩]⟩) := by
  have h0 : select_new_character 5
      ⟨[⟨1, "Leonardo da Vinci", "GENIUS", none⟩], []⟩ =
      (some ⟨1, "Leonardo da Vinci", "GENIUS", some 5⟩,
        ⟨[⟨1, "Leonardo da Vinci", "GENIUS", some 5⟩], [⟨1, 5⟩]⟩) := rfl
  exact C2_selection_idempotent 5
    ⟨[⟨1, "Leonardo da Vinci", "GENIUS", none⟩], []⟩ _ _ (by simp) h0

/-- C3: when no selection is recorded for today and the selection
operation returns a character, that character is the stamped copy of a
catalog row that is minimal under the NULL-first date order: its
pre-update `last_proposed_date` is below every row's, and it is a
never-proposed row whenever one exists — for every catalog ordering. -/
theorem C3_least_recently_proposed (today : Nat) (db : DB) (c : Character)
    (db' : DB) (hst : findStatusFor db today = none)
    (h : select_new_character today db = (some c, db')) :
    ∃ m ∈ db.characters, c = setDate today m ∧
      (∀ x ∈ db.characters,
        nullsFirstLE m.last_proposed_date x.last_proposed_date = true) ∧
      ((∃ x ∈ db.characters, x.last_proposed_date = none) →
        m.last_proposed_date = none) := by
  cases hmin : orderByDateFirst db.characters with
  | none =>
    rw [select_fresh_day_empty today db hst hmin] at h
    simp at h
  | some m =>
    rw [select_fresh_day today db m hst hmin] at h
    rw [Prod.mk.injEq] at h
    obtain ⟨hc, _⟩ := h
    injection hc with hc
    refine ⟨m, orderByDateFirst_mem _ m hmin, hc.symm,
      orderByDateFirst_min _ m hmin, ?_⟩
    rintro ⟨x, hx, hxnone⟩
    have hle := orderByDateFirst_min _ m hmin x hx
    rw [hxnone] at hle
    cases hm : m.last_proposed_date with
    | none => rfl
    | some d =>
      rw [hm] at hle
      simp [nullsFirstLE] at hle

/-- C3 witness. -/
theorem C3_least_recently_proposed_witness :
    ∃ m ∈ ([⟨1, "Galileo Galilei", "GENIUS", some 4⟩,
            ⟨2, "Lord Byron", "MASON", none⟩] : List Character),
      (⟨2, "Lord Byron", "MASON", some 9⟩ : Character) = setDate 9 m ∧
      (∀ x ∈ ([⟨1, "Galileo Galilei", "GENIUS", some 4⟩,
               ⟨2, "Lord Byron", "MASON", none⟩] : List Character),
        nullsFirstLE m.last_proposed_date x.last_proposed_date = true) ∧
      ((∃ x ∈ ([⟨1, "Galileo Galilei", "GENIUS", some 4⟩,
                ⟨2, "Lord Byron", "MASON", none⟩] : List Character),
          x.last_proposed_date = none) →
        m.last_proposed_date = none) :=
  C3_least_recently_proposed 9
    ⟨[⟨1, "Galileo Galilei", "GENIUS", some 4⟩,
      ⟨2, "Lord Byron", "MASON", none⟩], []⟩
    ⟨2, "Lord Byron", "MASON", some 9⟩
    ⟨[⟨1, "Galileo Galilei", "GENIUS", some 4⟩,
      ⟨2, "Lord Byron", "MASON", some 9⟩], [⟨2, 9⟩]⟩ rfl rfl

/-- C7: every selection call preserves the invariant that at most one
`game_status` row exists per distinct date, and recording a fresh day's
selection replaces the table's contents with the single new record
instead of retaining the old one. -/
theorem C7_one_record_per_date (today : Nat) (db : DB)
    (hinv : atMostOnePerDate db.game_status) :
    atMostOnePerDate (select_new_character today db).2.game_status ∧
    (findStatusFor db today = none →
      ∀ c db', select_new_character today db = (some c, db') →
        db'.game_status = [⟨c.id, today⟩]) := by
  constructor
  · cases hst : findStatusFor db today with
    | some st =>
      rw [select_already_started today db st hst]
      exact hinv
    | none =>
      cases hmin : orderByDateFirst db.characters with
      | none =>
        rw [select_fresh_day_empty today db hst hmin]
        exact hinv
      | some m =>
        rw [select_fresh_day today db m hst hmin]
        simp [atMostOnePerDate]
  · intro hst c db' h
    cases hmin : orderByDateFirst db.characters with
    | none =>
      rw [select_fresh_day_empty today db hst hmin] at h
      simp at h
    | some m =>
      rw [select_fresh_day today db m hst hmin] at h
      rw [Prod.mk.injEq] at h
      obtain ⟨hc, hdb⟩ := h
      injection hc with hc
      rw [← hdb, ← hc]
      rfl

/-- C7 witness. -/
theorem C7_one_record_per_date_witness :
    atMostOnePerDate
      (select_new_character 3
        ⟨[⟨1, "Lord Byron", "MASON", none⟩], [⟨1, 2⟩]⟩).2.game_status ∧
    (findStatusFor ⟨[⟨1, "Lord Byron", "MASON", none⟩], [⟨1, 2⟩]⟩ 3 = none →
      ∀ c db',
        select_new_character 3
            ⟨[⟨1, "Lord Byron", "MASON", none⟩], [⟨1, 2⟩]⟩ = (some c, db') →
          db'.game_status = [⟨c.id, 3⟩]) :=
  C7_one_record_per_date 3 ⟨[⟨1, "Lord Byron", "MASON", none⟩], [⟨1, 2⟩]⟩
    (by simp [atMostOnePerDate])

/-- C9: every selection call keeps the `game_status` table at no more
than one row in total across all dates, and whenever a fresh day's record
is inserted the whole table is first emptied, so the result is exactly the
one new row — whatever rows (of whatever dates) were there before. -/
theorem C9_status_table_singleton (today : Nat) (db : DB) :
    (db.game_status.length ≤ 1 →
      (select_new_character today db).2.game_status.length ≤ 1) ∧
    (findStatusFor db today = none →
      ∀ c db', select_new_character today db = (some c, db') →
        db'.game_status = [⟨c.id, today⟩]) := by
  constructor
  · intro hlen
    cases hst : findStatusFor db today with
    | some st =>
      rw [select_already_started today db st hst]
      exact hlen
    | none =>
      cases hmin : orderByDateFirst db.characters with
      | none =>
        rw [select_fresh_day_empty today db hst hmin]
        exact hlen
      | some m =>
        rw [select_fresh_day today db m hst hmin]
        simp
  · intro hst c db' h
    cases hmin : orderByDateFirst db.characters with
    | none =>
      rw [select_fresh_day_empty today db hst hmin] at h
      simp at h
    | some m =>
      rw [select_fresh_day today db m hst hmin] at h
      rw [Prod.mk.injEq] at h
      obtain ⟨hc, hdb⟩ := h
      injection hc with hc
      rw [← hdb, ← hc]
      rfl

/-- C9 witness. -/
theorem C9_status_table_singleton_witness :
    (([⟨9, 1⟩] : List GameStatus).length ≤ 1 →
      (select_new_character 3
        ⟨[⟨1, "Lord Byron", "MASON", none⟩], [⟨9, 1⟩]⟩).2.game_status.length ≤ 1) ∧
    (findStatusFor ⟨[⟨1, "Lord Byron", "MASON", none⟩], [⟨9, 1⟩]⟩ 3 = none →
      ∀ c db',
        select_new_character 3
            ⟨[⟨1, "Lord Byron", "MASON", none⟩], [⟨9, 1⟩]⟩ = (some c, db') →
          db'.game_status = [⟨c.id, 3⟩]) :=
  C9_status_table_singleton 3 ⟨[⟨1, "Lord Byron", "MASON", none⟩], [⟨9, 1⟩]⟩

theorem isPrefixOf_append_self (p q : List Char) :
    p.isPrefixOf (p ++ q) = true := by
  induction p with
  | nil => cases q <;> simp [List.isPrefixOf]
  | cons c t ih => simp [List.isPrefixOf, ih]

theorem ltrimChars_cons_of_nonspace (c : Char) (l : List Char)
    (h : isSpaceChar c = false) : ltrimChars (c :: l) = c :: l := by
  simp [ltrimChars, List.dropWhile_cons, h]

theorem ltrimChars_cons_of_space (c : Char) (l : List Char)
    (h : isSpaceChar c = true) : ltrimChars (c :: l) = ltrimChars l := by
  simp [ltrimChars, List.dropWhile_cons, h]

theorem rtrimChars_append (u v : List Char) (hu : rtrimChars u = u) :
    rtrimChars (u ++ v) = u ++ rtrimChars v := by
  unfold rtrimChars List.rdropWhile at hu ⊢
  rw [List.reverse_append, List.dropWhile_append]
  by_cases hv : (v.reverse.dropWhile isSpaceChar).isEmpty
  · rw [if_pos hv]
    rw [List.isEmpty_iff] at hv
    rw [hv]
    simp [hu]
  · rw [if_neg hv]
    simp

theorem rtrimChars_cons (c : Char) (t : List Char) :
    rtrimChars (c :: t) =
      if rtrimChars t = [] then (if isSpaceChar c then [] else [c])
      else c :: rtrimChars t := by
  unfold rtrimChars List.rdropWhile
  rw [List.reverse_cons, List.dropWhile_append]
  by_cases ht : (t.reverse.dropWhile isSpaceChar).isEmpty
  · rw [if_pos ht]
    rw [List.isEmpty_iff] at ht
    rw [if_pos (by simp [ht])]
    by_cases hc : isSpaceChar c
    · simp [List.dropWhile_cons, hc]
    · simp [List.dropWhile_cons, hc]
  · rw [if_neg ht]
    rw [List.isEmpty_iff] at ht
    rw [if_neg (by simp [ht])]
    simp

theorem ltrim_rtrim_comm (l : List Char) :
    ltrimChars (rtrimChars l) = rtrimChars (ltrimChars l) := by
  induction l with
  | nil => rfl
  | cons c t ih =>
    by_cases hc : isSpaceChar c
    · rw [ltrimChars_cons_of_space c t hc, rtrimChars_cons]
      by_cases ht : rtrimChars t = []
      · rw [if_pos ht, if_pos hc]
        have hall : ltrimChars t = [] := by
          apply List.dropWhile_eq_nil_iff.mpr
          exact fun x hx => List.rdropWhile_eq_nil_iff.mp ht x hx
        rw [hall]
        rfl
      · rw [if_neg ht, ltrimChars_cons_of_space c _ hc]
        exact ih
    · have hc' : isSpaceChar c = false := by simpa using hc
      rw [ltrimChars_cons_of_nonspace c t hc', rtrimChars_cons]
      by_cases ht : rtrimChars t = []
      · rw [if_pos ht, if_neg (by simp [hc'])]
        exact ltrimChars_cons_of_nonspace c [] hc'
      · rw [if_neg ht]
        exact ltrimChars_cons_of_nonspace c _ hc'

theorem rtrimChars_idem (l : List Char) :
    rtrimChars (rtrimChars l) = rtrimChars l :=
  List.rdropWhile_idempotent _ _

theorem trimChars_rtrimChars (l : List Char) :
    trimChars (rtrimChars l) = trimChars l := by
  unfold trimChars
  rw [ltrim_rtrim_comm]
  exact rtrimChars_idem _

theorem trimChars_append_of_clean (p b : List Char) (hne : p ≠ [])
    (hh : isSpaceChar p.headI = false) (hr : rtrimChars p = p) :
    trimChars (p ++ b) = p ++ rtrimChars b := by
  cases p with
  | nil => exact absurd rfl hne
  | cons c t =>
    unfold trimChars
    rw [List.cons_append, ltrimChars_cons_of_nonspace c (t ++ b) hh,
      ← List.cons_append]
    exact rtrimChars_append (c :: t) b hr

theorem extractWith_roundtrip (p b : List Char) (hne : p ≠ [])
    (hh : isSpaceChar p.headI = false) (hr : rtrimChars p = p) :
    extractWith [p] (p ++ b) = trimChars b := by
  have htrim : trimChars (p ++ b) = p ++ rtrimChars b :=
    trimChars_append_of_clean p b hne hh hr
  unfold extractWith
  rw [htrim, isPrefixOf_append_self, if_pos rfl, List.drop_left]
  exact trimChars_rtrimChars b

theorem extractWith_id (ps : List (List Char)) (bio : List Char)
    (h : ∀ p ∈ ps, p.isPrefixOf (trimChars bio) = false) :
    extractWith ps bio = bio := by
  induction ps with
  | nil => rfl
  | cons p ps ih =>
    unfold extractWith
    rw [if_neg (by simp [h p (List.mem_cons_self p ps)])]
    exact ih (fun q hq => h q (List.mem_cons_of_mem p hq))

theorem extractWith_shape (ps : List (List Char)) (bio : List Char) :
    extractWith ps bio = bio ∨
      ∃ p ∈ ps, extractWith ps bio = trimChars ((trimChars bio).drop p.length) := by
  induction ps with
  | nil => exact Or.inl rfl
  | cons p ps ih =>
    unfold extractWith
    by_cases hp : p.isPrefixOf (trimChars bio) = true
    · exact Or.inr ⟨p, List.mem_cons_self p ps, by rw [if_pos hp]⟩
    · rw [if_neg hp]
      rcases ih with h | ⟨q, hq, he⟩
      · exact Or.inl h
      · exact Or.inr ⟨q, List.mem_cons_of_mem p hq, he⟩

/-- C6: for every category, prepending a known category phrase to a body
and extracting returns exactly the trimmed body; a biography whose
trimmed text starts with no known phrase of the category is returned
unchanged; and on any input whatsoever the extractor totally computes
either the unchanged biography or a trimmed phrase-stripped remainder
(never a failure). -/
theorem C6_extractor_roundtrip (cat : String) :
    (∀ p b, p ∈ categoryVariants cat → extract cat (p ++ b) = trimChars b) ∧
    (∀ bio, (∀ p ∈ categoryVariants cat, p.isPrefixOf (trimChars bio) = false) →
      extract cat bio = bio) ∧
    (∀ bio, extract cat bio = bio ∨
      ∃ p ∈ categoryVariants cat,
        extract cat bio = trimChars ((trimChars bio).drop p.length)) := by
  refine ⟨?_, ?_, ?_⟩
  · intro p b hp
    unfold extract
    unfold categoryVariants at hp ⊢
    split_ifs at hp ⊢ with h1 h2 h3
    · rw [List.mem_singleton.mp hp]
      exact extractWith_roundtrip _ b (by decide) (by decide) (by decide)
    · rw [List.mem_singleton.mp hp]
      exact extractWith_roundtrip _ b (by decide) (by decide) (by decide)
    · rw [List.mem_singleton.mp hp]
      exact extractWith_roundtrip _ b (by decide) (by decide) (by decide)
    · simp at hp
  · intro bio hfail
    exact extractWith_id _ _ hfail
  · intro bio
    exact extractWith_shape _ _

/-- C6 witness. -/
theorem C6_extractor_roundtrip_witness :
    extract "GENIUS"
        ("Is a **Genius**. Specifically:".data ++ " he painted the Mona Lisa.".data) =
      trimChars " he painted the Mona Lisa.".data ∧
    extract "GENIUS" "He painted the Mona Lisa.".data =
      "He painted the Mona Lisa.".data :=
  ⟨(C6_extractor_roundtrip "GENIUS").1 "Is a **Genius**. Specifically:".data
      " he painted the Mona Lisa.".data (by decide),
   (C6_extractor_roundtrip "GENIUS").2.1 "He painted the Mona Lisa.".data
      (by decide)⟩

end GenioOMassone
